import Mathlib

/-!
Shallow embedding of the retrieval engine in
`server/lib/embedding_retriever.py` (class `EmbeddingRetriever`), together
with theorems settling the specification claims about it.

Modelling conventions:
* Python strings are `List Char`; Python substring tests (`a in b`) are the
  contiguous-infix relation `<:+:`; `str.replace` is `replaceAll` below
  (left-to-right, non-overlapping, all occurrences).
* Python floats are modelled as exact rationals (`ℚ`), so the boost
  multipliers 1.5, 1.3, 1.2, 0.7 become 3/2, 13/10, 6/5, 7/10.
* The numeric tf-idf weights are logarithm-based reals that have no exact
  rational representation, so the weight values produced by the fitted
  vectorizer are abstracted as a `WeightModel` parameter / a `transform`
  field of the state; every structural aspect of the pipeline (tokenizing,
  vocabulary construction and its error conditions, query expansion,
  boosting, sorting, slicing, filtering) is embedded concretely.
* `numpy.ndarray.argsort()` is modelled as a stable ascending sort of the
  index range (numpy uses an unstable quicksort in general, but on the
  small arrays appearing in any concrete statement here it degenerates to
  a stable insertion sort, which the model matches).
-/

namespace EmbeddingRetriever

/-! ### Text primitives -/

/-- Python `str.lower()` restricted to the ASCII range used throughout. -/
def toLowerList (s : List Char) : List Char := s.map Char.toLower

/-- Python regex word character `\w` (over the ASCII range): letter, digit
or underscore.  Used for the `\b` word boundaries of the token pattern. -/
def isWordChar (c : Char) : Bool := c.isAlpha || c.isDigit || c == '_'

/-- Recursion core of `replaceAll`.  The fuel argument bounds the length
of the remaining string, so the exhaustion branch is unreachable when the
fuel starts at the string length; keeping the recursion structural in the
fuel lets the kernel evaluate the function directly. -/
def replaceAllAux (pat rep : List Char) : ℕ → List Char → List Char
  | _, [] => []
  | 0, s => s
  | fuel + 1, c :: cs =>
    if pat ≠ [] ∧ pat <+: (c :: cs) then
      rep ++ replaceAllAux pat rep fuel ((c :: cs).drop pat.length)
    else
      c :: replaceAllAux pat rep fuel cs

/-- Python `s.replace(pat, rep)`: replace every occurrence of `pat`,
scanning left to right without overlap.  (The source never calls it with an
empty pattern; for an empty pattern this model is the identity.) -/
def replaceAll (pat rep s : List Char) : List Char :=
  replaceAllAux pat rep s.length s

/-! ### Query expansion (`_enhance_query_for_retrieval`, lines 189-231) -/

/-- The `state_mapping` dict of line 192, in Python insertion order. -/
def stateMapping : List (List Char × List Char) :=
  [("colorado".toList, "CO".toList), ("co".toList, "CO".toList),
   ("california".toList, "CA".toList), ("ca".toList, "CA".toList),
   ("alabama".toList, "AL".toList), ("al".toList, "AL".toList),
   ("texas".toList, "TX".toList), ("tx".toList, "TX".toList),
   ("florida".toList, "FL".toList), ("fl".toList, "FL".toList),
   ("new york".toList, "NY".toList), ("ny".toList, "NY".toList)]

/-- The `health_mapping` dict of line 202, in Python insertion order. -/
def healthMapping : List (List Char × List Char) :=
  [("obesity".toList, "OBESITY obesity obese overweight".toList),
   ("diabetes".toList, "DIABETES diabetes diabetic".toList),
   ("heart disease".toList, "CHD coronary heart disease".toList),
   ("stroke".toList, "STROKE cerebrovascular".toList),
   ("depression".toList, "MHLTH mental health depression".toList),
   ("asthma".toList, "CASTHMA asthma respiratory".toList)]

/-- One iteration of the state-alias loop (lines 214-216): if the key
occurs in the processed string, replace each occurrence by the
abbreviation, a space, and the key. -/
def stateAliasOnce (p : List Char) (pr : List Char × List Char) : List Char :=
  if pr.1 <:+: p then replaceAll pr.1 (pr.2 ++ ' ' :: pr.1) p else p

/-- The full state-alias loop over the table, in order. -/
def applyStateAliases (p : List Char) : List Char :=
  stateMapping.foldl stateAliasOnce p

/-- The health-measure loop (lines 219-221): conditions are replaced by
their expansion phrase. -/
def applyHealthAliases (p : List Char) : List Char :=
  healthMapping.foldl
    (fun acc pr => if pr.1 <:+: acc then replaceAll pr.1 pr.2 acc else acc) p

/-- The `county` literal used both by the expander and the booster. -/
def countyT : List Char := "county".toList

/-- The data-related trigger words of line 228. -/
def dataWords : List (List Char) :=
  ["data".toList, "information".toList, "statistics".toList]

/-- Context keyword injection (lines 224-229). -/
def addContextKeywords (p : List Char) : List Char :=
  let p1 := if countyT <:+: p then p ++ " CountyName CountyFIPS".toList else p
  let p2 := if "state".toList <:+: p1 then p1 ++ " StateAbbr StateName".toList else p1
  if ∃ w ∈ dataWords, w <:+: p2 then
    p2 ++ " TotalPopulation Data_Value Measure".toList
  else p2

/-- `_enhance_query_for_retrieval`: lower-case, state aliases, health
aliases, context keywords. -/
def enhanceQuery (q : List Char) : List Char :=
  addContextKeywords (applyHealthAliases (applyStateAliases (toLowerList q)))

/-! ### Context boosting (`_apply_context_boost`, lines 233-268) -/

/-- The `states` list of line 239 (note: without `new york` / `ny`). -/
def stateTerms : List (List Char) :=
  ["colorado".toList, "california".toList, "alabama".toList, "texas".toList,
   "florida".toList, "co".toList, "ca".toList, "al".toList, "tx".toList,
   "fl".toList]

/-- The `health_terms` list of line 240. -/
def healthTerms : List (List Char) :=
  ["obesity".toList, "diabetes".toList, "heart".toList, "stroke".toList,
   "depression".toList, "asthma".toList]

/-- The `location_terms` list of line 241. -/
def locationTerms : List (List Char) :=
  ["county".toList, "state".toList, "region".toList, "area".toList]

/-- The multiplicative boost factor accumulated for one document
(lines 245-264), given the lower-cased query and lower-cased document
content.  The sequential `boost_factor *= …` updates are the left-to-right
product below. -/
def boostFactor (queryLower docLower : List Char) : ℚ :=
  ((stateTerms.map fun t =>
      if t <:+: queryLower ∧ t <:+: docLower then (3/2 : ℚ) else 1).prod) *
  ((healthTerms.map fun t =>
      if t <:+: queryLower ∧ t <:+: docLower then (13/10 : ℚ) else 1).prod) *
  (if (∃ t ∈ locationTerms, t <:+: queryLower) ∧
      (∃ t ∈ locationTerms, t <:+: docLower) then (6/5 : ℚ) else 1) *
  (if countyT <:+: queryLower ∧ ¬ countyT <:+: docLower then (7/10 : ℚ) else 1)

/-! ### Documents and retriever state -/

/-- The `Document` dataclass (lines 19-23). -/
structure Document where
  page_content : List Char
  metadata : List (List Char × List Char)
deriving DecidableEq

/-- The default document used for out-of-range index access in the model. -/
def defaultDoc : Document := ⟨[], []⟩

/-- The mutable state of an `EmbeddingRetriever` object: the document
store, the optional embedding matrix (`None` until a successful fit), and
the fitted vectorizer's query-side `transform`.  The numeric content of
`transform` comes from the real-valued tf-idf weights and is therefore
abstract; all claims proved below hold for every value of this field. -/
structure RetrieverState where
  documents : List Document
  embeddings : Option (List (List ℚ))
  transform : List Char → List ℚ

/-- The state right after `__init__` (lines 31-51): no documents, no
embeddings.  The unfitted vectorizer's transform is never consulted by the
code (retrieval guards on `embeddings is None`), so it is modelled by the
constant empty vector. -/
def initialState : RetrieverState := ⟨[], none, fun _ => []⟩

/-! ### Tokenization (the vectorizer's `token_pattern`, line 45)

The configured pattern is the regex `\b[A-Za-z]{2,}\b` applied by
`re.findall` to the lower-cased text.  A match is a maximal run of ASCII
letters of length at least 2 whose neighbouring characters (when they
exist) are not word characters; a digit or underscore adjacent to a run
suppresses the whole run, because `\b` requires a word/non-word transition
and no position inside the run can start a new match. -/

/-- Recursion core of the token scanner, structural in a fuel that bounds
the length of the remaining string (the exhaustion branch is unreachable
from `tokensFrom`, which supplies the string length as fuel). -/
def tokensAux : Bool → ℕ → List Char → List (List Char)
  | _, _, [] => []
  | _, 0, _ => []
  | prevWord, fuel + 1, c :: cs =>
    if c.isAlpha then
      (if prevWord = false ∧ 2 ≤ ((c :: cs).takeWhile Char.isAlpha).length ∧
          ((c :: cs).dropWhile Char.isAlpha = [] ∨
            isWordChar (((c :: cs).dropWhile Char.isAlpha).headD ' ') = false)
        then [(c :: cs).takeWhile Char.isAlpha] else []) ++
        tokensAux true fuel ((c :: cs).dropWhile Char.isAlpha)
    else
      tokensAux (isWordChar c) fuel cs

/-- Scanner for `re.findall(r'\b[A-Za-z]{2,}\b', s)`.  `prevWord` records
whether the character just before the current position is a word
character (`false` at the start of the string). -/
def tokensFrom (prevWord : Bool) (s : List Char) : List (List Char) :=
  tokensAux prevWord s.length s

/-- Token stream of a string as the vectorizer's tokenizer produces it. -/
def tokenize (s : List Char) : List (List Char) := tokensFrom false s

/-- Tokens the vectorizer derives from a raw text: lower-case, then apply
the token pattern. -/
def buildTokens (s : List Char) : List (List Char) := tokenize (toLowerList s)

/-- Recursion core of `alphaRuns`, fuel-structural like `tokensAux`. -/
def alphaRunsAux : ℕ → List Char → List (List Char)
  | _, [] => []
  | 0, _ => []
  | fuel + 1, c :: cs =>
    if c.isAlpha then
      (c :: cs).takeWhile Char.isAlpha ::
        alphaRunsAux fuel ((c :: cs).dropWhile Char.isAlpha)
    else alphaRunsAux fuel cs

/-- The maximal runs of alphabetic characters of a string, in order.  This
is the claim-side notion of token used by the specification sentence on
tokenization; it ignores word boundaries. -/
def alphaRuns (s : List Char) : List (List Char) :=
  alphaRunsAux s.length s

/-! ### Vocabulary and fit (`add_documents`, lines 122-147)

`TfidfVectorizer.fit_transform` builds the vocabulary from the per-text
token n-grams (stop words removed before n-gram construction), raises
`ValueError` when the raw vocabulary is empty, when
`max_df * n_samples < min_df` (with `max_df = 0.95`, `min_df = 1`: exactly
when there are fewer than two texts), or when document-frequency pruning
removes every term; otherwise it produces one weighted row per text.  The
`max_features = 5000` truncation that follows pruning only changes which
terms carry weight, and weights are abstracted in `WeightModel`, so it is
not represented separately. -/

/-- The fixed English stop-word list of scikit-learn
(`sklearn.feature_extraction.text.ENGLISH_STOP_WORDS`), selected by
`stop_words='english'` on line 41. -/
def englishStopWords : List (List Char) :=
  (["a", "about", "above", "across", "after", "afterwards", "again",
    "against", "all", "almost", "alone", "along", "already", "also",
    "although", "always", "am", "among", "amongst", "amoungst", "amount",
    "an", "and", "another", "any", "anyhow", "anyone", "anything",
    "anyway", "anywhere", "are", "around", "as", "at", "back", "be",
    "became", "because", "become", "becomes", "becoming", "been",
    "before", "beforehand", "behind", "being", "below", "beside",
    "besides", "between", "beyond", "bill", "both", "bottom", "but",
    "by", "call", "can", "cannot", "cant", "co", "con", "could",
    "couldnt", "cry", "de", "describe", "detail", "do", "done", "down",
    "due", "during", "each", "eg", "eight", "either", "eleven", "else",
    "elsewhere", "empty", "enough", "etc", "even", "ever", "every",
    "everyone", "everything", "everywhere", "except", "few", "fifteen",
    "fifty", "fill", "find", "fire", "first", "five", "for", "former",
    "formerly", "forty", "found", "four", "from", "front", "full",
    "further", "get", "give", "go", "had", "has", "hasnt", "have", "he",
    "hence", "her", "here", "hereafter", "hereby", "herein", "hereupon",
    "hers", "herself", "him", "himself", "his", "how", "however",
    "hundred", "i", "ie", "if", "in", "inc", "indeed", "interest",
    "into", "is", "it", "its", "itself", "keep", "last", "latter",
    "latterly", "least", "less", "ltd", "made", "many", "may", "me",
    "meanwhile", "might", "mill", "mine", "more", "moreover", "most",
    "mostly", "move", "much", "must", "my", "myself", "name", "namely",
    "neither", "never", "nevertheless", "next", "nine", "no", "nobody",
    "none", "noone", "nor", "not", "nothing", "now", "nowhere", "of",
    "off", "often", "on", "once", "one", "only", "onto", "or", "other",
    "others", "otherwise", "our", "ours", "ourselves", "out", "over",
    "own", "part", "per", "perhaps", "please", "put", "rather", "re",
    "same", "see", "seem", "seemed", "seeming", "seems", "serious",
    "several", "she", "should", "show", "side", "since", "sincere",
    "six", "sixty", "so", "some", "somehow", "someone", "something",
    "sometime", "sometimes", "somewhere", "still", "such", "system",
    "take", "ten", "than", "that", "the", "their", "them", "themselves",
    "then", "thence", "there", "thereafter", "thereby", "therefore",
    "therein", "thereupon", "these", "they", "thick", "thin", "third",
    "this", "those", "though", "three", "through", "throughout", "thru",
    "thus", "to", "together", "too", "top", "toward", "towards",
    "twelve", "twenty", "two", "un", "under", "until", "up", "upon",
    "us", "very", "via", "was", "we", "well", "were", "what", "whatever",
    "when", "whence", "whenever", "where", "whereafter", "whereas",
    "whereby", "wherein", "whereupon", "wherever", "whether", "which",
    "while", "whither", "who", "whoever", "whole", "whom", "whose",
    "why", "will", "with", "within", "without", "would", "yet", "you",
    "your", "yours", "yourself", "yourselves", "computer"] :
    List String).map String.toList

/-- The word n-grams of length `n` of a token list, each joined by a
single space, as scikit-learn's analyzer builds them. -/
def ngramsOfLen (n : ℕ) (toks : List (List Char)) : List (List Char) :=
  (List.range (toks.length + 1 - n)).map
    (fun i => List.intercalate [' '] ((toks.drop i).take n))

/-- All vocabulary terms contributed by one text: stop-word-filtered
tokens, then 1-, 2- and 3-grams (`ngram_range=(1, 3)`, line 42). -/
def docTerms (text : List Char) : List (List Char) :=
  let toks := (buildTokens text).filter fun t => decide (t ∉ englishStopWords)
  ngramsOfLen 1 toks ++ ngramsOfLen 2 toks ++ ngramsOfLen 3 toks

/-- The raw (pre-pruning) vocabulary over a corpus. -/
def rawVocabulary (texts : List (List Char)) : List (List Char) :=
  ((texts.map docTerms).flatten).dedup

/-- Document frequency of a term over a corpus. -/
def documentFrequency (texts : List (List Char)) (t : List Char) : ℕ :=
  (texts.filter fun x => decide (t ∈ docTerms x)).length

/-- The vocabulary after `max_df = 0.95` pruning: keep a term exactly when
its document frequency is at most 0.95 times the corpus size. -/
def prunedVocabulary (texts : List (List Char)) : List (List Char) :=
  (rawVocabulary texts).filter fun t =>
    decide (20 * documentFrequency texts t ≤ 19 * texts.length)

/-- The `ValueError`s `fit_transform` can raise, in the order the
scikit-learn code checks them. -/
inductive FitError where
  | emptyVocabulary
  | maxDfLtMinDf
  | prunedEmpty
deriving DecidableEq

/-- The real-valued tf-idf weights (sublinear tf times smoothed idf, rows
L2-normalized) are not rational; this record abstracts them.  `docWeight
corpus text` is the embedding row of `text` after fitting on `corpus`;
`queryWeight corpus` is the fitted vectorizer's transform for queries. -/
structure WeightModel where
  docWeight : List (List Char) → List Char → List ℚ
  queryWeight : List (List Char) → List Char → List ℚ

/-- `vectorizer.fit_transform(texts)`: raise on an empty raw vocabulary,
on `max_df * n < min_df` (fewer than two texts), or on a pruned-empty
vocabulary; otherwise one weight row per text, in order. -/
def fitTransform (wm : WeightModel) (texts : List (List Char)) :
    Except FitError (List (List ℚ)) :=
  if rawVocabulary texts = [] then .error .emptyVocabulary
  else if 19 * texts.length < 20 then .error .maxDfLtMinDf
  else if prunedVocabulary texts = [] then .error .prunedEmpty
  else .ok (texts.map (wm.docWeight texts))

/-- `add_documents` (lines 122-147).  The store is extended first
(line 135); then the fit runs — over the new texts only when `embeddings`
is `None` (line 141), over the whole store otherwise (lines 144-145).  A
raised fit error leaves the already-extended store with the old
embeddings, exactly as the Python exception path does. -/
def addDocuments (wm : WeightModel) (st : RetrieverState)
    (docs : List Document) : RetrieverState × Option FitError :=
  let texts := docs.map Document.page_content
  let newDocs := st.documents ++ docs
  match st.embeddings with
  | none =>
    match fitTransform wm texts with
    | .error e => ({ st with documents := newDocs }, some e)
    | .ok m => (⟨newDocs, some m, wm.queryWeight texts⟩, none)
  | some _ =>
    let allTexts := newDocs.map Document.page_content
    match fitTransform wm allTexts with
    | .error e => ({ st with documents := newDocs }, some e)
    | .ok m => (⟨newDocs, some m, wm.queryWeight allTexts⟩, none)

/-! ### Retrieval (`retrieve`, lines 149-187) -/

/-- Dot product of two rational vectors (excess entries contribute 0). -/
def dotProduct : List ℚ → List ℚ → ℚ
  | a :: as, b :: bs => a * b + dotProduct as bs
  | _, _ => 0

/-- The similarity vector of line 173: the expanded query is transformed
and compared against every embedding row.  The tf-idf rows are
L2-normalized by the vectorizer, so `sklearn.cosine_similarity` on them
coincides with the plain dot product. -/
def rawSimilarities (st : RetrieverState) (q : List Char) : List ℚ :=
  match st.embeddings with
  | none => []
  | some rows => rows.map fun r => dotProduct (st.transform (enhanceQuery q)) r

/-- The boosting loop of lines 243-266: entry `i` of the copied similarity
vector is multiplied by the boost factor of document `i`.  (When the score
vector is longer than the store the extra entries stay untouched; the
converse mismatch would raise `IndexError` in Python and is outside every
state considered by the theorems below.) -/
def boostAux (queryLower : List Char) (docs : List Document) :
    ℕ → List ℚ → List ℚ
  | _, [] => []
  | i, s :: rest =>
    (if i < docs.length then
        s * boostFactor queryLower (toLowerList ((docs.getD i defaultDoc).page_content))
      else s) :: boostAux queryLower docs (i + 1) rest

/-- `_apply_context_boost` applied to a similarity vector. -/
def applyContextBoost (sims : List ℚ) (queryLower : List Char)
    (docs : List Document) : List ℚ :=
  boostAux queryLower docs 0 sims

/-- The boosted score vector a retrieval computes (lines 170-176). -/
def boostedScores (st : RetrieverState) (q : List Char) : List ℚ :=
  applyContextBoost (rawSimilarities st q) (toLowerList q) st.documents

/-- The index-comparison order underlying a stable ascending `argsort`:
by value, ties by original position. -/
def idxLe (l : List ℚ) (i j : ℕ) : Prop :=
  l.getD i 0 < l.getD j 0 ∨ (l.getD i 0 = l.getD j 0 ∧ i ≤ j)

instance (l : List ℚ) : DecidableRel (idxLe l) :=
  fun _ _ => inferInstanceAs (Decidable (_ ∨ _))

/-- `numpy.argsort` (ascending, stable) of a score vector. -/
def argsort (l : List ℚ) : List ℕ :=
  List.insertionSort (idxLe l) (List.range l.length)

/-- Python slice `a[m:]` for an integer start index `m`: a non-negative
start drops that many leading elements; a negative start keeps the last
`-m` elements (clamped). -/
def sliceFrom (l : List ℕ) (m : ℤ) : List ℕ :=
  l.drop (if 0 ≤ m then m.toNat else l.length - (-m).toNat)

/-- `retrieve` (lines 149-187): guard on an empty store or missing
embeddings, boost, `argsort()[-k:][::-1]`, then collect `(document,
score)` pairs for in-range indices with positive boosted score. -/
def retrieve (st : RetrieverState) (q : List Char) (k : ℤ) :
    List (Document × ℚ) :=
  if st.documents = [] ∨ st.embeddings = none then [] else
    let boosted := boostedScores st q
    let topIdx := (sliceFrom (argsort boosted) (-k)).reverse
    topIdx.filterMap fun i =>
      if i < st.documents.length ∧ 0 < boosted.getD i 0 then
        some (st.documents.getD i defaultDoc, boosted.getD i 0)
      else none

/-! ### State-threaded retrieval (for the frame claim)

The source's `retrieve` only reads `self`: the vectorizer transform does
not refit, and `_apply_context_boost` writes into `similarities.copy()`.
The state-threaded version below mirrors the statement sequence of
lines 160-187, passing the object state through each step. -/

/-- `self.vectorizer.transform([...])` (line 170): reads the fitted
vectorizer, leaves the object untouched. -/
def transformQuery (st : RetrieverState) (t : List Char) :
    List ℚ × RetrieverState :=
  (st.transform t, st)

/-- `self._apply_context_boost(...)` (line 176): builds a boosted copy,
leaves the object untouched. -/
def applyContextBoostSt (sims : List ℚ) (queryLower : List Char)
    (st : RetrieverState) : List ℚ × RetrieverState :=
  (applyContextBoost sims queryLower st.documents, st)

/-- `retrieve` with the object state threaded through every step. -/
def retrieveSt (st : RetrieverState) (q : List Char) (k : ℤ) :
    List (Document × ℚ) × RetrieverState :=
  if st.documents = [] ∨ st.embeddings = none then ([], st) else
    let pq := enhanceQuery q
    let r1 := transformQuery st pq
    let sims := match r1.2.embeddings with
      | none => []
      | some rows => rows.map fun r => dotProduct r1.1 r
    let r2 := applyContextBoostSt sims (toLowerList q) r1.2
    let topIdx := (sliceFrom (argsort r2.1) (-k)).reverse
    (topIdx.filterMap fun i =>
      if i < r2.2.documents.length ∧ 0 < r2.1.getD i 0 then
        some (r2.2.documents.getD i defaultDoc, r2.1.getD i 0)
      else none, r2.2)

/-! ### State predicates -/

/-- A fitted state whose embedding matrix is aligned with the store, as
produced by every successful fit from a clean state. -/
def WellFormedState (st : RetrieverState) : Prop :=
  ∃ rows, st.embeddings = some rows ∧ rows.length = st.documents.length

/-- States on which the Python `retrieve` completes normally: empty store,
no embeddings, or aligned matrix. -/
def TractableState (st : RetrieverState) : Prop :=
  st.documents = [] ∨ st.embeddings = none ∨ WellFormedState st

/-! ### Ranking lemmas -/

lemma filterMap_if_eq {β : Type} (p : ℕ → Prop) [DecidablePred p] (f : ℕ → β) :
    ∀ l : List ℕ,
      (l.filterMap fun i => if p i then some (f i) else none) =
        (l.filter fun i => decide (p i)).map f := by
  intro l
  induction l with
  | nil => rfl
  | cons a l ih =>
    by_cases h : p a <;> simp [List.filterMap_cons, List.filter_cons, h, ih]

instance (l : List ℚ) : IsTotal ℕ (idxLe l) := ⟨by
  intro i j
  rcases lt_trichotomy (l.getD i 0) (l.getD j 0) with h | h | h
  · exact Or.inl (Or.inl h)
  · rcases Nat.le_total i j with hij | hij
    · exact Or.inl (Or.inr ⟨h, hij⟩)
    · exact Or.inr (Or.inr ⟨h.symm, hij⟩)
  · exact Or.inr (Or.inl h)⟩

instance (l : List ℚ) : IsTrans ℕ (idxLe l) := ⟨by
  intro i j m hij hjm
  unfold idxLe at hij hjm ⊢
  rcases hij with h1 | ⟨e1, le1⟩ <;> rcases hjm with h2 | ⟨e2, le2⟩
  · exact Or.inl (h1.trans h2)
  · exact Or.inl (e2 ▸ h1)
  · exact Or.inl (e1 ▸ h2)
  · exact Or.inr ⟨e1.trans e2, le1.trans le2⟩⟩

lemma sorted_argsort (l : List ℚ) : (argsort l).Pairwise (idxLe l) :=
  List.sorted_insertionSort (idxLe l) (List.range l.length)

lemma nodup_argsort (l : List ℚ) : (argsort l).Nodup :=
  ((List.perm_insertionSort (idxLe l) (List.range l.length)).nodup_iff).mpr
    (List.nodup_range _)

lemma retrieve_eq_nil (st : RetrieverState) (q : List Char) (k : ℤ)
    (h : st.documents = [] ∨ st.embeddings = none) : retrieve st q k = [] := by
  unfold retrieve
  rw [if_pos h]

/-- Structure of a non-degenerate retrieval: the result is generated by a
list of indices that is strictly ordered by boosted score descending (ties
by descending index), every index is in range with positive boosted score,
and at most `k` indices survive the slice. -/
lemma retrieve_core (st : RetrieverState) (q : List Char) (k : ℤ) (hk : 1 ≤ k) :
    ∃ idxs : List ℕ,
      retrieve st q k =
        idxs.map (fun i =>
          (st.documents.getD i defaultDoc, (boostedScores st q).getD i 0)) ∧
      idxs.Pairwise (fun i j =>
        (boostedScores st q).getD j 0 < (boostedScores st q).getD i 0 ∨
          ((boostedScores st q).getD j 0 = (boostedScores st q).getD i 0 ∧ j < i)) ∧
      (∀ i ∈ idxs, i < st.documents.length ∧ 0 < (boostedScores st q).getD i 0) ∧
      (idxs.length : ℤ) ≤ k := by
  by_cases hg : st.documents = [] ∨ st.embeddings = none
  · exact ⟨[], by simp [retrieve_eq_nil st q k hg], by simp, by simp,
      by simpa using le_trans zero_le_one hk⟩
  · set bs := boostedScores st q with hbs
    set t := (sliceFrom (argsort bs) (-k)).reverse with ht
    refine ⟨t.filter (fun i => decide (i < st.documents.length ∧ 0 < bs.getD i 0)),
      ?_, ?_, ?_, ?_⟩
    · have hr : retrieve st q k = t.filterMap fun i =>
          if i < st.documents.length ∧ 0 < bs.getD i 0 then
            some (st.documents.getD i defaultDoc, bs.getD i 0)
          else none := by
        unfold retrieve
        rw [if_neg hg]
      rw [hr]
      exact filterMap_if_eq _ _ t
    · have hs : (argsort bs).Pairwise (fun i j => idxLe bs i j ∧ i ≠ j) :=
        (sorted_argsort bs).and (nodup_argsort bs)
      have hs2 : (sliceFrom (argsort bs) (-k)).Pairwise
          (fun i j => idxLe bs i j ∧ i ≠ j) := by
        unfold sliceFrom
        exact hs.sublist (List.drop_sublist _ _)
      have hs3 : t.Pairwise (fun i j => idxLe bs j i ∧ j ≠ i) := by
        rw [ht, List.pairwise_reverse]
        exact hs2
      refine (hs3.filter _).imp ?_
      intro i j hij
      obtain ⟨hle, hne⟩ := hij
      unfold idxLe at hle
      rcases hle with hlt | ⟨heq, hji⟩
      · exact Or.inl hlt
      · exact Or.inr ⟨heq, lt_of_le_of_ne hji hne⟩
    · intro i hi
      exact of_decide_eq_true (List.mem_filter.mp hi).2
    · have h1 : (t.filter
          (fun i => decide (i < st.documents.length ∧ 0 < bs.getD i 0))).length
            ≤ t.length :=
        List.length_filter_le _ _
      have h2 : t.length = (sliceFrom (argsort bs) (-k)).length := by
        rw [ht, List.length_reverse]
      have h3 : (sliceFrom (argsort bs) (-k)).length ≤ k.toNat := by
        unfold sliceFrom
        rw [List.length_drop, if_neg (by omega : ¬ (0:ℤ) ≤ -k)]
        omega
      omega

/-! ### Dot-product lemmas (similarity scoring) -/

lemma dotProduct_self_nonneg : ∀ u : List ℚ, 0 ≤ dotProduct u u
  | [] => le_refl 0
  | a :: as => by
    have h := dotProduct_self_nonneg as
    show 0 ≤ a * a + dotProduct as as
    nlinarith [mul_self_nonneg a]

lemma dotProduct_nonneg : ∀ u v : List ℚ,
    (∀ x ∈ u, 0 ≤ x) → (∀ x ∈ v, 0 ≤ x) → 0 ≤ dotProduct u v
  | [], v, _, _ => by cases v <;> exact le_refl 0
  | _ :: _, [], _, _ => le_refl 0
  | a :: as, b :: bs, hu, hv => by
    have h := dotProduct_nonneg as bs
      (fun x hx => hu x (List.mem_cons_of_mem _ hx))
      (fun x hx => hv x (List.mem_cons_of_mem _ hx))
    have ha := hu a (List.mem_cons_self _ _)
    have hb := hv b (List.mem_cons_self _ _)
    show 0 ≤ a * b + dotProduct as bs
    have := mul_nonneg ha hb
    linarith

/-- Cauchy-Schwarz for list dot products. -/
lemma dotProduct_sq_le : ∀ u v : List ℚ,
    (dotProduct u v) ^ 2 ≤ dotProduct u u * dotProduct v v
  | [], v => by
    cases v <;> simp [dotProduct]
  | a :: as, [] => by
    simp [dotProduct]
  | a :: as, b :: bs => by
    have IH := dotProduct_sq_le as bs
    have hA := dotProduct_self_nonneg as
    have hB := dotProduct_self_nonneg bs
    show (a * b + dotProduct as bs) ^ 2 ≤
      (a * a + dotProduct as as) * (b * b + dotProduct bs bs)
    set S := dotProduct as bs with hS
    set A := dotProduct as as with hA2
    set B := dotProduct bs bs with hB2
    rcases eq_or_lt_of_le hB with hB0 | hBpos
    · have hS2 : S ^ 2 = 0 :=
        le_antisymm (by nlinarith) (sq_nonneg S)
      have hSz : S = 0 := sq_eq_zero_iff.mp hS2
      rw [hSz, ← hB0]
      nlinarith [mul_nonneg hA (mul_self_nonneg b)]
    · have key : B * ((a * a + A) * (b * b + B) - (a * b + S) ^ 2) =
          (a * B - b * S) ^ 2 + (A * B - S ^ 2) * (b * b + B) := by ring
      have h1 : 0 ≤ (a * B - b * S) ^ 2 := sq_nonneg _
      have h2 : 0 ≤ (A * B - S ^ 2) * (b * b + B) :=
        mul_nonneg (by nlinarith) (by nlinarith [mul_self_nonneg b])
      nlinarith [key, h1, h2, hBpos]

/-! ### Boost-factor lemmas -/

lemma prod_map_single_boost {α : Type} (f g : α → ℚ) (S : α) (c : ℚ) :
    ∀ l : List α, l.Nodup → S ∈ l → f S = c * g S →
      (∀ t ∈ l, t ≠ S → f t = g t) → (l.map f).prod = c * (l.map g).prod := by
  intro l
  induction l with
  | nil => intro _ hmem; exact absurd hmem (List.not_mem_nil S)
  | cons a l ih =>
    intro hnd hmem hfS hfg
    rcases List.mem_cons.mp hmem with rfl | hSl
    · have hfgl : ∀ t ∈ l, f t = g t := by
        intro t ht
        refine hfg t (List.mem_cons_of_mem _ ht) ?_
        rintro rfl
        exact (List.nodup_cons.mp hnd).1 ht
      rw [List.map_cons, List.map_cons, List.prod_cons, List.prod_cons, hfS,
        List.map_congr_left hfgl]
      ring
    · have hne : a ≠ S := by
        rintro rfl
        exact (List.nodup_cons.mp hnd).1 hSl
      have ha : f a = g a := hfg a (List.mem_cons_self _ _) hne
      rw [List.map_cons, List.map_cons, List.prod_cons, List.prod_cons, ha,
        ih (List.nodup_cons.mp hnd).2 hSl hfS
          (fun t ht ht2 => hfg t (List.mem_cons_of_mem _ ht) ht2)]
      ring

lemma boostFactor_pos (ql dl : List Char) : 0 < boostFactor ql dl := by
  unfold boostFactor
  refine mul_pos (mul_pos (mul_pos ?_ ?_) ?_) ?_
  · refine List.prod_pos ?_
    intro x hx
    obtain ⟨t, _, ht⟩ := List.mem_map.mp hx
    rw [← ht]
    split <;> norm_num
  · refine List.prod_pos ?_
    intro x hx
    obtain ⟨t, _, ht⟩ := List.mem_map.mp hx
    rw [← ht]
    split <;> norm_num
  · split <;> norm_num
  · split <;> norm_num

/-! ### Replacement lemmas (query expansion) -/

lemma replaceAllAux_contains_rep (pat rep : List Char) (hpat : pat ≠ []) :
    ∀ (n : ℕ) (s : List Char), s.length ≤ n → pat <:+: s →
      rep <:+: replaceAllAux pat rep n s := by
  intro n
  induction n with
  | zero =>
    intro s hlen hinf
    have hnil : s = [] := List.length_eq_zero.mp (Nat.le_zero.mp hlen)
    subst hnil
    exact absurd (List.eq_nil_of_infix_nil hinf) hpat
  | succ n ih =>
    intro s hlen hinf
    match s with
    | [] => exact absurd (List.eq_nil_of_infix_nil hinf) hpat
    | c :: cs =>
      by_cases h : pat ≠ [] ∧ pat <+: (c :: cs)
      · have hstep : replaceAllAux pat rep (n + 1) (c :: cs) =
            rep ++ replaceAllAux pat rep n ((c :: cs).drop pat.length) := by
          show (if pat ≠ [] ∧ pat <+: (c :: cs) then _ else _) = _
          rw [if_pos h]
        rw [hstep]
        exact ⟨[], replaceAllAux pat rep n ((c :: cs).drop pat.length), by simp⟩
      · have hni : ¬ pat <+: (c :: cs) := fun hp => h ⟨hpat, hp⟩
        have hcs : pat <:+: cs := by
          rcases List.infix_cons_iff.mp hinf with hp | hcs
          · exact absurd hp hni
          · exact hcs
        have hlen2 : cs.length ≤ n := by
          simp only [List.length_cons] at hlen
          omega
        have hstep : replaceAllAux pat rep (n + 1) (c :: cs) =
            c :: replaceAllAux pat rep n cs := by
          show (if pat ≠ [] ∧ pat <+: (c :: cs) then _ else _) = _
          rw [if_neg h]
        rw [hstep]
        exact List.infix_cons (ih cs hlen2 hcs)

lemma replaceAll_contains_rep (pat rep : List Char) (hpat : pat ≠ [])
    (s : List Char) (hinf : pat <:+: s) : rep <:+: replaceAll pat rep s :=
  replaceAllAux_contains_rep pat rep hpat s.length s (le_refl _) hinf

/-! ### Tokenizer lemmas -/

/-- The scanner state after processing a chunk: the word-character flag of
its last character, or the incoming flag for an empty chunk. -/
def afterState (b : Bool) (xs : List Char) : Bool :=
  match xs.getLast? with
  | none => b
  | some c => isWordChar c

lemma isWordChar_of_isAlpha {c : Char} (h : c.isAlpha = true) :
    isWordChar c = true := by
  simp [isWordChar, h]

lemma takeWhile_append_all {p : Char → Bool} :
    ∀ {xs : List Char} (ys : List Char), (∀ c ∈ xs, p c = true) →
      (xs ++ ys).takeWhile p = xs ++ ys.takeWhile p ∧
      (xs ++ ys).dropWhile p = ys.dropWhile p := by
  intro xs
  induction xs with
  | nil => intro ys _; exact ⟨rfl, rfl⟩
  | cons a xs ih =>
    intro ys h
    have ha := h a (List.mem_cons_self _ _)
    obtain ⟨h1, h2⟩ := ih ys (fun c hc => h c (List.mem_cons_of_mem _ hc))
    constructor
    · simp only [List.cons_append, List.takeWhile_cons, ha, if_true, h1]
    · simp only [List.cons_append, List.dropWhile_cons, ha, if_true, h2]

lemma takeWhile_append_stop {p : Char → Bool} :
    ∀ {xs : List Char} (ys : List Char), (∃ c ∈ xs, p c = false) →
      (xs ++ ys).takeWhile p = xs.takeWhile p ∧
      (xs ++ ys).dropWhile p = xs.dropWhile p ++ ys := by
  intro xs
  induction xs with
  | nil =>
    rintro ys ⟨c, hc, _⟩
    exact absurd hc (List.not_mem_nil c)
  | cons a xs ih =>
    rintro ys ⟨c, hc, hpc⟩
    by_cases hpa : p a = true
    · have hcx : c ∈ xs := by
        rcases List.mem_cons.mp hc with rfl | h
        · rw [hpa] at hpc; cases hpc
        · exact h
      obtain ⟨h1, h2⟩ := ih ys ⟨c, hcx, hpc⟩
      constructor
      · simp only [List.cons_append, List.takeWhile_cons, hpa, if_true, h1]
      · simp only [List.cons_append, List.dropWhile_cons, hpa, if_true, h2]
    · have hpa2 : p a = false := Bool.eq_false_iff.mpr hpa
      constructor
      · simp only [List.cons_append, List.takeWhile_cons, hpa2]
        simp
      · simp only [List.cons_append, List.dropWhile_cons, hpa2]
        simp

lemma tokensAux_fuel_irrel : ∀ (n m : ℕ) (b : Bool) (s : List Char),
    s.length ≤ n → s.length ≤ m → tokensAux b n s = tokensAux b m s := by
  intro n
  induction n with
  | zero =>
    intro m b s hn _
    have hnil : s = [] := List.length_eq_zero.mp (Nat.le_zero.mp hn)
    subst hnil
    cases m <;> rfl
  | succ n ih =>
    intro m b s hn hm
    match s with
    | [] => cases m <;> rfl
    | c :: cs =>
      match m with
      | 0 => simp at hm
      | m + 1 =>
        simp only [List.length_cons] at hn hm
        show (if c.isAlpha then _ else _) = (if c.isAlpha then _ else _)
        by_cases hca : c.isAlpha = true
        · have hdw : ((c :: cs).dropWhile Char.isAlpha).length ≤ cs.length := by
            rw [List.dropWhile_cons_of_pos hca]
            exact (List.dropWhile_suffix (l := cs) Char.isAlpha).length_le
          rw [if_pos hca, if_pos hca]
          congr 1
          exact ih m true _ (by omega) (by omega)
        · rw [if_neg (by simp [hca]), if_neg (by simp [hca])]
          exact ih m (isWordChar c) cs (by omega) (by omega)

lemma tokensFrom_nil (b : Bool) : tokensFrom b [] = [] := rfl

lemma tokensFrom_cons (b : Bool) (c : Char) (cs : List Char) :
    tokensFrom b (c :: cs) =
      if c.isAlpha then
        (if b = false ∧ 2 ≤ ((c :: cs).takeWhile Char.isAlpha).length ∧
            ((c :: cs).dropWhile Char.isAlpha = [] ∨
              isWordChar (((c :: cs).dropWhile Char.isAlpha).headD ' ') = false)
          then [(c :: cs).takeWhile Char.isAlpha] else []) ++
          tokensFrom true ((c :: cs).dropWhile Char.isAlpha)
      else tokensFrom (isWordChar c) cs := by
  show tokensAux b (cs.length + 1) (c :: cs) = _
  show (if c.isAlpha then _ else _) = (if c.isAlpha then _ else _)
  by_cases hca : c.isAlpha = true
  · have hdw : ((c :: cs).dropWhile Char.isAlpha).length ≤ cs.length := by
      rw [List.dropWhile_cons_of_pos hca]
      exact (List.dropWhile_suffix (l := cs) Char.isAlpha).length_le
    rw [if_pos hca, if_pos hca]
    congr 1
    exact tokensAux_fuel_irrel cs.length _ true _ hdw (le_refl _)
  · rw [if_neg (by simp [hca]), if_neg (by simp [hca])]
    rfl

/-- The scanner splits at a chunk boundary whose last character is not
alphabetic. -/
lemma tokensFrom_append :
    ∀ (n : ℕ) (b : Bool) (xs ys : List Char), xs.length ≤ n →
      (∀ c, xs.getLast? = some c → c.isAlpha = false) →
      tokensFrom b (xs ++ ys) =
        tokensFrom b xs ++ tokensFrom (afterState b xs) ys := by
  intro n
  induction n with
  | zero =>
    intro b xs ys hlen _
    have hx : xs = [] := List.length_eq_zero.mp (Nat.le_zero.mp hlen)
    subst hx
    rfl
  | succ n ih =>
    intro b xs ys hlen hlast
    match xs with
    | [] => rfl
    | c :: cs =>
      by_cases hca : c.isAlpha = true
      · have hlastmem : ∃ d ∈ (c :: cs), d.isAlpha = false := by
          match hx : (c :: cs).getLast? with
          | some d => exact ⟨d, List.mem_of_mem_getLast? hx, hlast d hx⟩
          | none => simp at hx
        obtain ⟨hT, hD⟩ :=
          takeWhile_append_stop (p := Char.isAlpha) ys hlastmem
        have hrest_ne : (c :: cs).dropWhile Char.isAlpha ≠ [] := by
          intro h0
          obtain ⟨d, hd, hdf⟩ := hlastmem
          rw [List.dropWhile_eq_nil_iff.mp h0 d hd] at hdf
          cases hdf
        obtain ⟨rh, rt, hrest⟩ := List.exists_cons_of_ne_nil hrest_ne
        have hlen2 : ((c :: cs).dropWhile Char.isAlpha).length ≤ n := by
          rw [List.dropWhile_cons_of_pos hca]
          have := (List.dropWhile_suffix (l := cs) Char.isAlpha).length_le
          simp only [List.length_cons] at hlen
          omega
        have hlast2 : ∀ d, ((c :: cs).dropWhile Char.isAlpha).getLast? = some d →
            d.isAlpha = false := by
          intro d hd
          refine hlast d ?_
          obtain ⟨t, htt⟩ := List.dropWhile_suffix (l := c :: cs) Char.isAlpha
          rw [← htt, List.getLast?_append, hd]
          rfl
        have hg : ((c :: cs).dropWhile Char.isAlpha).getLast? =
            (c :: cs).getLast? := by
          obtain ⟨t, htt⟩ := List.dropWhile_suffix (l := c :: cs) Char.isAlpha
          conv_rhs => rw [← htt]
          rw [List.getLast?_append]
          cases hx : ((c :: cs).dropWhile Char.isAlpha).getLast? with
          | none =>
            rw [hrest] at hx
            simp at hx
          | some e => rfl
        have hafter : afterState true ((c :: cs).dropWhile Char.isAlpha) =
            afterState b (c :: cs) := by
          unfold afterState
          rw [hg]
          cases hx : (c :: cs).getLast? with
          | none => simp at hx
          | some e => rfl
        have hrec := ih true ((c :: cs).dropWhile Char.isAlpha) ys hlen2 hlast2
        rw [show (c :: cs) ++ ys = c :: (cs ++ ys) from rfl,
          tokensFrom_cons, tokensFrom_cons, if_pos hca, if_pos hca]
        rw [show c :: (cs ++ ys) = (c :: cs) ++ ys from rfl, hT, hD]
        rw [hrec, hafter]
        have hcond : ((c :: cs).dropWhile Char.isAlpha ++ ys = [] ∨
              isWordChar (((c :: cs).dropWhile Char.isAlpha ++ ys).headD ' ') = false) ↔
            ((c :: cs).dropWhile Char.isAlpha = [] ∨
              isWordChar (((c :: cs).dropWhile Char.isAlpha).headD ' ') = false) := by
          rw [hrest]
          simp
        rw [show ∀ (x y z : List (List Char)), x ++ (y ++ z) = (x ++ y) ++ z from
          fun x y z => (List.append_assoc x y z).symm]
        congr 2
        exact if_congr (and_congr_right fun _ => and_congr_right fun _ => hcond) rfl rfl
      · have hca2 : c.isAlpha = false := Bool.eq_false_iff.mpr hca
        match cs with
        | [] =>
          rw [show ([c] : List Char) ++ ys = c :: ys from rfl, tokensFrom_cons,
            tokensFrom_cons]
          rw [if_neg (by simp [hca2]), if_neg (by simp [hca2])]
          have hax : afterState b [c] = isWordChar c := by
            unfold afterState
            simp
          rw [hax, tokensFrom_nil]
          simp
        | d :: ds =>
          have hlen2 : (d :: ds).length ≤ n := by
            simp only [List.length_cons] at hlen ⊢
            omega
          have hlast2 : ∀ e, (d :: ds).getLast? = some e → e.isAlpha = false := by
            intro e he
            exact hlast e (by rw [List.getLast?_cons_cons]; exact he)
          have hrec := ih (isWordChar c) (d :: ds) ys hlen2 hlast2
          have hafter : afterState (isWordChar c) (d :: ds) =
              afterState b (c :: d :: ds) := by
            unfold afterState
            rw [List.getLast?_cons_cons]
            match hx : (d :: ds).getLast? with
            | some e => rfl
            | none => simp at hx
          rw [show (c :: d :: ds) ++ ys = c :: ((d :: ds) ++ ys) from rfl,
            tokensFrom_cons, if_neg (by simp [hca2]), hrec, hafter]
          rw [show tokensFrom b (c :: d :: ds) =
            tokensFrom (isWordChar c) (d :: ds) from by
              rw [tokensFrom_cons, if_neg (by simp [hca2])]]

/-- The scanner ignores the incoming word flag when the next character is
not alphabetic. -/
lemma tokensFrom_irrel (b b' : Bool) :
    ∀ v : List Char, (∀ c, v.head? = some c → c.isAlpha = false) →
      tokensFrom b v = tokensFrom b' v := by
  intro v hv
  match v with
  | [] => rfl
  | d :: ds =>
    have hd : d.isAlpha = false := hv d rfl
    rw [tokensFrom_cons, tokensFrom_cons, if_neg (by simp [hd]),
      if_neg (by simp [hd])]

/-- Scanning an alphabetic run of length at least 2 followed by a
non-alphabetic remainder: the run is emitted exactly when the incoming
flag is clear and the remainder does not begin with a word character. -/
lemma tokensFrom_alpha_block (b : Bool) (r v : List Char)
    (hr : ∀ c ∈ r, c.isAlpha = true) (h2 : 2 ≤ r.length)
    (hv : ∀ c, v.head? = some c → c.isAlpha = false) :
    tokensFrom b (r ++ v) =
      (if b = false ∧ (v = [] ∨ isWordChar (v.headD ' ') = false)
        then [r] else []) ++ tokensFrom true v := by
  have hrne : r ≠ [] := by
    intro h0
    rw [h0] at h2
    simp at h2
  obtain ⟨rc, rs, hrc⟩ := List.exists_cons_of_ne_nil hrne
  have hTv : v.takeWhile Char.isAlpha = [] := by
    match v with
    | [] => rfl
    | d :: ds =>
      rw [List.takeWhile_cons, if_neg (by simp [hv d rfl])]
  have hDv : v.dropWhile Char.isAlpha = v := by
    match v with
    | [] => rfl
    | d :: ds =>
      rw [List.dropWhile_cons, if_neg (by simp [hv d rfl])]
  obtain ⟨hT, hD⟩ := @takeWhile_append_all Char.isAlpha r v hr
  rw [hTv, List.append_nil] at hT
  rw [hDv] at hD
  subst hrc
  rw [show (rc :: rs) ++ v = rc :: (rs ++ v) from rfl, tokensFrom_cons,
    if_pos (hr rc (List.mem_cons_self _ _))]
  rw [show rc :: (rs ++ v) = (rc :: rs) ++ v from rfl, hT, hD]
  congr 1
  refine if_congr ?_ rfl rfl
  constructor
  · rintro ⟨hb, _, hcond⟩
    exact ⟨hb, hcond⟩
  · rintro ⟨hb, hcond⟩
    exact ⟨hb, h2, hcond⟩

/-! ### Boundary-condition conversion helpers -/

lemma headOpt_of_headD (v : List Char)
    (hv : v = [] ∨ (v.headD ' ').isAlpha = false) :
    ∀ c, v.head? = some c → c.isAlpha = false := by
  cases v with
  | nil => intro c hc; simp at hc
  | cons d ds =>
    intro c hc
    simp only [List.head?_cons, Option.some.injEq] at hc
    subst hc
    rcases hv with hv | hv
    · simp at hv
    · simpa using hv

lemma lastOpt_of_getLastD (u : List Char)
    (hu : u = [] ∨ isWordChar (u.getLastD ' ') = false) :
    ∀ c, u.getLast? = some c → isWordChar c = false := by
  intro c hc
  rcases hu with rfl | hu
  · simp at hc
  · have hd : u.getLastD ' ' = c := by
      rw [List.getLastD_eq_getLast?, hc]
      rfl
    rwa [hd] at hu

lemma alpha_false_of_word_false {c : Char} (h : isWordChar c = false) :
    c.isAlpha = false := by
  by_cases ha : c.isAlpha = true
  · rw [isWordChar_of_isAlpha ha] at h
    cases h
  · exact Bool.eq_false_iff.mpr ha

lemma afterState_false (u : List Char)
    (h : ∀ c, u.getLast? = some c → isWordChar c = false) :
    afterState false u = false := by
  unfold afterState
  cases hx : u.getLast? with
  | none => rfl
  | some c => exact h c hx

lemma afterState_true (u : List Char) (hne : u ≠ [])
    (h : isWordChar (u.getLastD ' ') = true) : afterState false u = true := by
  unfold afterState
  cases hx : u.getLast? with
  | none => exact absurd (List.getLast?_eq_none_iff.mp hx) hne
  | some c =>
    have hd : u.getLastD ' ' = c := by
      rw [List.getLastD_eq_getLast?, hx]
      rfl
    rw [← hd]
    exact h

lemma fitTransform_ok (wm : WeightModel) (texts : List (List Char))
    (M : List (List ℚ)) (h : fitTransform wm texts = Except.ok M) :
    M = texts.map (wm.docWeight texts) := by
  unfold fitTransform at h
  split_ifs at h with h1 h2 h3
  cases h
  rfl

/-! ### Concrete fixtures used by counterexamples and witnesses -/

set_option maxRecDepth 40000

/-- A document whose content is the text `aa`. -/
def exDocA : Document := ⟨"aa".toList, []⟩

/-- A document whose content is the text `bb`. -/
def exDocB : Document := ⟨"bb".toList, []⟩

/-- A document whose content is the text `aa bb`. -/
def exDocAB : Document := ⟨"aa bb".toList, []⟩

/-- A document whose content is the text `cc dd`. -/
def exDocCC : Document := ⟨"cc dd".toList, []⟩

/-- A document with empty content (no tokens at all). -/
def exEmptyDoc : Document := ⟨[], []⟩

/-- A fitted two-document state whose documents score identically on any
query: both embedding rows are the unit vector `[1]` and the transform is
constantly `[1]`. -/
def tieState : RetrieverState := ⟨[exDocA, exDocB], some [[1], [1]], fun _ => [1]⟩

/-- A fitted one-document state with a positive-scoring document. -/
def singleState : RetrieverState := ⟨[exDocA], some [[1]], fun _ => [1]⟩

/-- The state left behind by `add_documents([Document("")])` on a fresh
retriever: the store was extended before `fit_transform` raised, so the
store is non-empty while `embeddings` is still `None`. -/
def poisonedState : RetrieverState := ⟨[exEmptyDoc], none, fun _ => []⟩

/-- A fitted state over the corpus `["aa bb", "cc dd"]`. -/
def fittedState : RetrieverState := ⟨[exDocAB, exDocCC], some [[], []], fun _ => []⟩

/-- A concrete weight model (every weight row empty); the claims about
`add_documents` hold or fail independently of the weights. -/
def exWeightModel : WeightModel := ⟨fun _ _ => [], fun _ _ => []⟩

lemma retrieve_tieState_eval :
    retrieve tieState ("zz".toList) 2 = [(exDocB, 1), (exDocA, 1)] := by
  have h0 : rawSimilarities tieState ("zz".toList) = [1, 1] := by
    simp [rawSimilarities, tieState, dotProduct]
  have h1 : boostedScores tieState ("zz".toList) = [1, 1] := by
    rw [boostedScores, h0]
    simp +decide [applyContextBoost, boostAux, tieState, exDocA, exDocB, boostFactor,
      stateTerms, healthTerms, locationTerms, countyT, toLowerList, defaultDoc]
  have h2 : argsort ([1, 1] : List ℚ) = [0, 1] := by
    simp +decide [argsort, idxLe, List.insertionSort, List.orderedInsert, List.range,
      List.range.loop]
  unfold retrieve
  rw [if_neg (by simp [tieState])]
  simp only [h1, h2, sliceFrom]
  norm_num [tieState, exDocA, exDocB, defaultDoc, List.filterMap]

lemma retrieve_singleState_k0_eval :
    retrieve singleState ("zz".toList) 0 = [(exDocA, 1)] := by
  have h0 : rawSimilarities singleState ("zz".toList) = [1] := by
    simp [rawSimilarities, singleState, dotProduct]
  have h1 : boostedScores singleState ("zz".toList) = [1] := by
    rw [boostedScores, h0]
    simp +decide [applyContextBoost, boostAux, singleState, exDocA, boostFactor,
      stateTerms, healthTerms, locationTerms, countyT, toLowerList, defaultDoc]
  have h2 : argsort ([1] : List ℚ) = [0] := by
    simp +decide [argsort, idxLe, List.insertionSort, List.orderedInsert, List.range,
      List.range.loop]
  unfold retrieve
  rw [if_neg (by simp [singleState])]
  simp only [h1, h2, sliceFrom]
  norm_num [singleState, exDocA, defaultDoc, List.filterMap]

/-! ### Claim C1 -/

/-- Claim C1 as stated: for every fitted state, query and count, the
returned pairs are sorted by boosted score descending, documents with
equal boosted scores appear in original store-index order, non-positive
scores are dropped, and at most `k` pairs are returned. -/
def claimC1Statement : Prop :=
  ∀ (st : RetrieverState) (q : List Char) (k : ℤ), WellFormedState st →
    (retrieve st q k).Pairwise (fun a b => b.2 ≤ a.2) ∧
    (retrieve st q k).Pairwise (fun a b => a.2 = b.2 →
      st.documents.indexOf a.1 ≤ st.documents.indexOf b.1) ∧
    (∀ p ∈ retrieve st q k, 0 < p.2) ∧
    ((retrieve st q k).length : ℤ) ≤ k

/-- C1 fails on the code: with two equally-scored documents,
`argsort()[-k:][::-1]` returns them in reverse store order — index 1
before index 0 — because the ascending stable sort is reversed. -/
theorem retrieve_tie_order_counterexample : ¬ claimC1Statement := by
  intro h
  obtain ⟨-, htie, -, -⟩ := h tieState ("zz".toList) 2 ⟨[[1], [1]], rfl, rfl⟩
  rw [retrieve_tieState_eval] at htie
  have h2 := (List.pairwise_cons.mp htie).1 (exDocA, 1) (List.mem_cons_self _ _)
  have h3 := h2 rfl
  exact absurd h3 (by decide)

/-- C1 amended: the result is generated by an index list sorted by boosted
score descending with ties in descending (not ascending) original index
order, every returned index is in range with positive boosted score, and
for a requested count `k ≥ 1` at most `k` pairs are returned (the Python
slice `[-k:]` keeps the whole array when `k = 0`). -/
theorem retrieve_ranked_amended (st : RetrieverState) (q : List Char) (k : ℤ)
    (hw : WellFormedState st) (hk : 1 ≤ k) :
    ∃ idxs : List ℕ,
      retrieve st q k =
        idxs.map (fun i =>
          (st.documents.getD i defaultDoc, (boostedScores st q).getD i 0)) ∧
      idxs.Pairwise (fun i j =>
        (boostedScores st q).getD j 0 < (boostedScores st q).getD i 0 ∨
          ((boostedScores st q).getD j 0 = (boostedScores st q).getD i 0 ∧ j < i)) ∧
      (∀ i ∈ idxs, i < st.documents.length ∧ 0 < (boostedScores st q).getD i 0) ∧
      (idxs.length : ℤ) ≤ k :=
  retrieve_core st q k hk

/-- Witness for the amended C1 at a concrete fitted state and `k = 1`. -/
theorem retrieve_ranked_amended_witness :
    ∃ idxs : List ℕ,
      retrieve tieState ("zz".toList) 1 =
        idxs.map (fun i =>
          (tieState.documents.getD i defaultDoc,
            (boostedScores tieState ("zz".toList)).getD i 0)) ∧
      idxs.Pairwise (fun i j =>
        (boostedScores tieState ("zz".toList)).getD j 0 <
            (boostedScores tieState ("zz".toList)).getD i 0 ∨
          ((boostedScores tieState ("zz".toList)).getD j 0 =
              (boostedScores tieState ("zz".toList)).getD i 0 ∧ j < i)) ∧
      (∀ i ∈ idxs, i < tieState.documents.length ∧
        0 < (boostedScores tieState ("zz".toList)).getD i 0) ∧
      (idxs.length : ℤ) ≤ 1 :=
  retrieve_ranked_amended tieState ("zz".toList) 1 ⟨[[1], [1]], rfl, rfl⟩
    (by decide)

/-! ### Claim C2 -/

/-- Claim C2 as stated: for every state, query and integer `k`, no
returned pair has score ≤ 0 and at most `k` pairs are returned. -/
def claimC2Statement : Prop :=
  ∀ (st : RetrieverState) (q : List Char) (k : ℤ), TractableState st →
    (∀ p ∈ retrieve st q k, 0 < p.2) ∧ ((retrieve st q k).length : ℤ) ≤ k

/-- C2 fails at `k = 0`: `argsort()[-0:]` is the whole array, so a
one-document store returns one pair, more than `k = 0`. -/
theorem retrieve_k_zero_counterexample : ¬ claimC2Statement := by
  intro h
  obtain ⟨-, hlen⟩ := h singleState ("zz".toList) 0
    (Or.inr (Or.inr ⟨[[1]], rfl, rfl⟩))
  rw [retrieve_singleState_k0_eval] at hlen
  norm_num at hlen

/-- The score filter of line 184 is unconditional in `k`: whatever the
requested count, each returned pair passed the `boosted > 0` test. -/
lemma retrieve_pos_scores (st : RetrieverState) (q : List Char) (k : ℤ) :
    ∀ p ∈ retrieve st q k, 0 < p.2 := by
  intro p hp
  unfold retrieve at hp
  by_cases hg : st.documents = [] ∨ st.embeddings = none
  · rw [if_pos hg] at hp
    simp at hp
  · rw [if_neg hg] at hp
    simp only [List.mem_filterMap] at hp
    obtain ⟨i, hi, hif⟩ := hp
    by_cases hc : i < st.documents.length ∧ 0 < (boostedScores st q).getD i 0
    · rw [if_pos hc] at hif
      rw [← Option.some.inj hif]
      exact hc.2
    · rw [if_neg hc] at hif
      cases hif

/-- C2 amended: the score filter holds for every integer `k`; the count
bound holds for every `k ≥ 1`. -/
theorem retrieve_filter_bound_amended (st : RetrieverState) (q : List Char)
    (k : ℤ) (ht : TractableState st) :
    (∀ p ∈ retrieve st q k, 0 < p.2) ∧
      (1 ≤ k → ((retrieve st q k).length : ℤ) ≤ k) := by
  constructor
  · exact retrieve_pos_scores st q k
  · intro hk
    obtain ⟨idxs, heq, -, -, hlen⟩ := retrieve_core st q k hk
    rw [heq, List.length_map]
    exact hlen

/-- Witness for the amended C2 at a concrete fitted state and `k = 0`,
where the returned list is non-empty, so the score-filter conjunct is
exercised in the regime the amendment is about. -/
theorem retrieve_filter_bound_amended_witness :
    (∀ p ∈ retrieve singleState ("zz".toList) 0, 0 < p.2) ∧
      (1 ≤ (0:ℤ) → ((retrieve singleState ("zz".toList) 0).length : ℤ) ≤ 0) :=
  retrieve_filter_bound_amended singleState ("zz".toList) 0
    (Or.inr (Or.inr ⟨[[1]], rfl, rfl⟩))

/-! ### Claim C3 -/

/-- Claim C3 as stated: whenever a state-table key occurs in the
lower-cased query, the state-alias step leaves the result containing the
abbreviation followed by the matched phrase, and the original phrase is
retained. -/
def claimC3Statement : Prop :=
  ∀ (q : List Char) (pr : List Char × List Char), pr ∈ stateMapping →
    pr.1 <:+: toLowerList q →
    (pr.2 ++ ' ' :: pr.1) <:+: applyStateAliases (toLowerList q) ∧
    pr.1 <:+: applyStateAliases (toLowerList q)

/-- C3 fails on the code: the replacements are in-place and cascade.  For
the query `california`, the later `ca` and `al` rules rewrite inside the
phrase, producing `CA CA cAL alifornia`, which no longer contains
`california` (nor `CA california`). -/
theorem state_alias_retention_counterexample : ¬ claimC3Statement := by
  intro h
  have h1 := (h ("california".toList) ("california".toList, "CA".toList)
    (by decide) (by decide)).2
  exact absurd h1 (by decide)

/-- C3 amended: each table pair acts by in-place substring replacement —
every occurrence of the key is replaced by the abbreviation, a space, and
the key — so immediately after that pair's own step the abbreviation
precedes the retained phrase; later pairs operate on the rewritten string
and may destroy the phrase. -/
theorem state_alias_step_amended (pr : List Char × List Char)
    (hpr : pr ∈ stateMapping) (p : List Char) (hsub : pr.1 <:+: p) :
    (pr.2 ++ ' ' :: pr.1) <:+: stateAliasOnce p pr ∧
    pr.1 <:+: stateAliasOnce p pr := by
  have hne : pr.1 ≠ [] := by
    have hall : ∀ x ∈ stateMapping, x.1 ≠ [] := by decide
    exact hall pr hpr
  have h1 : (pr.2 ++ ' ' :: pr.1) <:+: stateAliasOnce p pr := by
    unfold stateAliasOnce
    rw [if_pos hsub]
    exact replaceAll_contains_rep pr.1 (pr.2 ++ ' ' :: pr.1) hne p hsub
  refine ⟨h1, ?_⟩
  have h2 : pr.1 <:+: (pr.2 ++ ' ' :: pr.1) := ⟨pr.2 ++ [' '], [], by simp⟩
  exact h2.trans h1

/-- Witness for the amended C3 at the `colorado → CO` pair. -/
theorem state_alias_step_amended_witness :
    ("CO".toList ++ ' ' :: "colorado".toList) <:+:
        stateAliasOnce ("colorado".toList) ("colorado".toList, "CO".toList) ∧
      "colorado".toList <:+:
        stateAliasOnce ("colorado".toList) ("colorado".toList, "CO".toList) :=
  state_alias_step_amended ("colorado".toList, "CO".toList) (by decide)
    ("colorado".toList) (by decide)

/-! ### Claim C4 -/

/-- Claim C4 as stated: the indexed tokens are exactly the case-folded
maximal alphabetic runs of length at least 2, regardless of adjacent
digits or punctuation. -/
def claimC4Statement : Prop :=
  ∀ s : List Char, buildTokens s =
    (alphaRuns (toLowerList s)).filter fun r => decide (2 ≤ r.length)

/-- C4 fails on the code: the token pattern `\b[A-Za-z]{2,}\b` requires
word boundaries, and a digit is a word character, so `ab1` yields no token
at all even though `ab` is a maximal alphabetic run of length 2. -/
theorem tokenize_digit_boundary_counterexample : ¬ claimC4Statement := by
  intro h
  have h1 := h ("ab1".toList)
  rw [show buildTokens ("ab1".toList) = [] from by decide,
    show (alphaRuns (toLowerList ("ab1".toList))).filter
      (fun r => decide (2 ≤ r.length)) = ["ab".toList] from by decide] at h1
  exact absurd h1 (by decide)

/-- C4 amended: a maximal alphabetic run of length at least 2 is tokenized
exactly when its neighbouring characters (when present) are not word
characters: punctuation and whitespace neighbours do not block the run,
but an adjacent digit or underscore — on either side — suppresses it. -/
theorem tokenize_boundary_amended (u r v : List Char)
    (hr : ∀ c ∈ r, c.isAlpha = true) (h2 : 2 ≤ r.length)
    (hv : v = [] ∨ (v.headD ' ').isAlpha = false) :
    ((u = [] ∨ isWordChar (u.getLastD ' ') = false) →
      (v = [] ∨ isWordChar (v.headD ' ') = false) →
      tokenize (u ++ r ++ v) = tokenize u ++ r :: tokenize v) ∧
    ((u = [] ∨ isWordChar (u.getLastD ' ') = false) →
      v ≠ [] → isWordChar (v.headD ' ') = true →
      tokenize (u ++ r ++ v) = tokenize u ++ tokenize v) ∧
    (u ≠ [] → (u.getLastD ' ').isAlpha = false →
      isWordChar (u.getLastD ' ') = true →
      tokenize (u ++ r ++ v) = tokenize u ++ tokenize v) := by
  have hv2 : ∀ c, v.head? = some c → c.isAlpha = false := headOpt_of_headD v hv
  refine ⟨?_, ?_, ?_⟩
  · intro hu hvb
    have hu2 : ∀ c, u.getLast? = some c → isWordChar c = false :=
      lastOpt_of_getLastD u hu
    have hu3 : ∀ c, u.getLast? = some c → c.isAlpha = false :=
      fun c hc => alpha_false_of_word_false (hu2 c hc)
    unfold tokenize
    rw [List.append_assoc,
      tokensFrom_append u.length false u (r ++ v) (le_refl _) hu3,
      afterState_false u hu2,
      tokensFrom_alpha_block false r v hr h2 hv2,
      if_pos ⟨rfl, hvb⟩,
      tokensFrom_irrel true false v hv2]
    simp
  · intro hu hvne hvw
    have hu2 : ∀ c, u.getLast? = some c → isWordChar c = false :=
      lastOpt_of_getLastD u hu
    have hu3 : ∀ c, u.getLast? = some c → c.isAlpha = false :=
      fun c hc => alpha_false_of_word_false (hu2 c hc)
    have hvcond : ¬ (v = [] ∨ isWordChar (v.headD ' ') = false) := by
      rintro (rfl | hfalse)
      · exact hvne rfl
      · rw [hvw] at hfalse
        cases hfalse
    unfold tokenize
    rw [List.append_assoc,
      tokensFrom_append u.length false u (r ++ v) (le_refl _) hu3,
      afterState_false u hu2,
      tokensFrom_alpha_block false r v hr h2 hv2,
      if_neg (fun hand => hvcond hand.2),
      tokensFrom_irrel true false v hv2]
    simp
  · intro hune hual huw
    have hu3 : ∀ c, u.getLast? = some c → c.isAlpha = false := by
      intro c hc
      have hd : u.getLastD ' ' = c := by
        rw [List.getLastD_eq_getLast?, hc]
        rfl
      rw [← hd]
      exact hual
    unfold tokenize
    rw [List.append_assoc,
      tokensFrom_append u.length false u (r ++ v) (le_refl _) hu3,
      afterState_true u hune huw,
      tokensFrom_alpha_block true r v hr h2 hv2,
      if_neg (by rintro ⟨hb, -⟩; cases hb),
      tokensFrom_irrel true false v hv2]
    simp

/-- Witness for the amended C4: `bc` between a hyphen and a space is
tokenized as its own run. -/
theorem tokenize_boundary_amended_witness :
    tokenize ("a-".toList ++ "bc".toList ++ " d".toList) =
      tokenize ("a-".toList) ++ "bc".toList :: tokenize (" d".toList) :=
  (tokenize_boundary_amended ("a-".toList) ("bc".toList) (" d".toList)
    (by decide) (by decide) (by decide)).1 (by decide) (by decide)

/-! ### Claim C5 -/

/-- Claim C5 as stated: adding an empty document sequence always completes
without raising. -/
def claimC5Statement : Prop :=
  ∀ (wm : WeightModel) (st : RetrieverState), (addDocuments wm st []).2 = none

/-- C5 fails on the code: on a fresh retriever, `add_documents([])` calls
`fit_transform([])`, which raises the empty-vocabulary `ValueError`. -/
theorem add_documents_empty_counterexample : ¬ claimC5Statement := by
  intro h
  have h1 := h exWeightModel initialState
  rw [show (addDocuments exWeightModel initialState []).2 =
    some FitError.emptyVocabulary from rfl] at h1
  cases h1

/-- C5 amended: an empty document sequence is tolerated only once a fit
has succeeded — the re-fit then covers the unchanged store and succeeds
again — while a fresh retriever raises; the command surface shields the
core by skipping ingestion of empty sequences. -/
theorem add_documents_empty_after_fit_amended (wm : WeightModel)
    (st : RetrieverState) (m M : List (List ℚ))
    (h1 : st.embeddings = some m)
    (h2 : fitTransform wm (st.documents.map Document.page_content) =
      Except.ok M) :
    (addDocuments wm st []).2 = none ∧
      (addDocuments wm st []).1.documents = st.documents := by
  unfold addDocuments
  rw [h1]
  simp [List.append_nil, h2]

/-- Witness for the amended C5 at a concrete fitted two-document state. -/
theorem add_documents_empty_after_fit_witness :
    (addDocuments exWeightModel fittedState []).2 = none ∧
      (addDocuments exWeightModel fittedState []).1.documents =
        fittedState.documents :=
  add_documents_empty_after_fit_amended exWeightModel fittedState [[], []]
    [[], []] rfl rfl

/-! ### Claim C6 -/

/-- C6 confirmed: with an empty store or no fit, `retrieve` returns the
empty sequence and raises nothing. -/
theorem retrieve_empty_state (st : RetrieverState) (q : List Char) (k : ℤ)
    (h : st.documents = [] ∨ st.embeddings = none) : retrieve st q k = [] :=
  retrieve_eq_nil st q k h

/-- Witness for C6 on the freshly initialized retriever. -/
theorem retrieve_empty_state_witness :
    retrieve initialState ("anything".toList) 5 = [] :=
  retrieve_empty_state initialState ("anything".toList) 5 (Or.inl rfl)

/-! ### Claim C7 -/

/-- Claim C7 as stated: if the query contains a state term `S`, document 1
contains `S` and document 2 does not, then at equal raw scores document 1
is boosted strictly above document 2. -/
def claimC7Statement : Prop :=
  ∀ (q d1 d2 S : List Char) (raw : ℚ), S ∈ stateTerms →
    S <:+: toLowerList q → S <:+: toLowerList d1 → ¬ S <:+: toLowerList d2 →
    raw * boostFactor (toLowerList q) (toLowerList d2) <
      raw * boostFactor (toLowerList q) (toLowerList d1)

/-- C7 fails on the code: other boost rules can overcompensate.  For the
query `colorado county` with documents `colorado` and `county`, the first
matches `colorado` and `co` (×1.5 each) but takes the county penalty
(×0.7), giving 1.575, while the second matches `co` (×1.5) and the
location boost (×1.2), giving 1.8. -/
theorem boost_monotonicity_counterexample : ¬ claimC7Statement := by
  intro h
  have h1 := h ("colorado county".toList) ("colorado".toList)
    ("county".toList) ("colorado".toList) 1 (by decide) (by decide)
    (by decide) (by decide)
  have hb1 : boostFactor (toLowerList ("colorado county".toList))
      (toLowerList ("colorado".toList)) = 63/40 := by
    simp +decide [boostFactor, stateTerms, healthTerms, locationTerms, countyT,
      toLowerList]
    norm_num
  have hb2 : boostFactor (toLowerList ("colorado county".toList))
      (toLowerList ("county".toList)) = 9/5 := by
    simp +decide [boostFactor, stateTerms, healthTerms, locationTerms, countyT,
      toLowerList]
    norm_num
  rw [hb1, hb2] at h1
  norm_num at h1

/-- C7 amended: the strict boost advantage holds when additionally the raw
score is positive and the two documents agree on every other boost-relevant
test (every state term other than `S`, every health term, the location
test, and the `county` test). -/
theorem boost_monotonicity_amended (q d1 d2 S : List Char) (raw : ℚ)
    (hS : S ∈ stateTerms) (hq : S <:+: toLowerList q)
    (h1 : S <:+: toLowerList d1) (h2 : ¬ S <:+: toLowerList d2)
    (hraw : 0 < raw)
    (hstates : ∀ t ∈ stateTerms, t ≠ S →
      (t <:+: toLowerList d1 ↔ t <:+: toLowerList d2))
    (hhealth : ∀ t ∈ healthTerms, (t <:+: toLowerList d1 ↔ t <:+: toLowerList d2))
    (hloc : (∃ t ∈ locationTerms, t <:+: toLowerList d1) ↔
      (∃ t ∈ locationTerms, t <:+: toLowerList d2))
    (hcounty : countyT <:+: toLowerList d1 ↔ countyT <:+: toLowerList d2) :
    raw * boostFactor (toLowerList q) (toLowerList d2) <
      raw * boostFactor (toLowerList q) (toLowerList d1) := by
  have hkey : boostFactor (toLowerList q) (toLowerList d1) =
      (3/2) * boostFactor (toLowerList q) (toLowerList d2) := by
    unfold boostFactor
    have hstate : ((stateTerms.map fun t =>
        if t <:+: toLowerList q ∧ t <:+: toLowerList d1 then (3/2:ℚ) else 1).prod) =
        (3/2) * ((stateTerms.map fun t =>
        if t <:+: toLowerList q ∧ t <:+: toLowerList d2 then (3/2:ℚ) else 1).prod) := by
      refine prod_map_single_boost _ _ S (3/2) stateTerms (by decide) hS ?_ ?_
      · rw [if_pos ⟨hq, h1⟩, if_neg (fun hand => h2 hand.2)]
        norm_num
      · intro t ht htS
        exact if_congr (and_congr_right fun _ => hstates t ht htS) rfl rfl
    have hhealth2 : ((healthTerms.map fun t =>
        if t <:+: toLowerList q ∧ t <:+: toLowerList d1 then (13/10:ℚ) else 1).prod) =
        ((healthTerms.map fun t =>
        if t <:+: toLowerList q ∧ t <:+: toLowerList d2 then (13/10:ℚ) else 1).prod) :=
      congrArg List.prod (List.map_congr_left fun t ht =>
        if_congr (and_congr_right fun _ => hhealth t ht) rfl rfl)
    have hloc2 : (if (∃ t ∈ locationTerms, t <:+: toLowerList q) ∧
          (∃ t ∈ locationTerms, t <:+: toLowerList d1) then (6/5:ℚ) else 1) =
        (if (∃ t ∈ locationTerms, t <:+: toLowerList q) ∧
          (∃ t ∈ locationTerms, t <:+: toLowerList d2) then (6/5:ℚ) else 1) :=
      if_congr (and_congr_right fun _ => hloc) rfl rfl
    have hcounty2 : (if countyT <:+: toLowerList q ∧
          ¬ countyT <:+: toLowerList d1 then (7/10:ℚ) else 1) =
        (if countyT <:+: toLowerList q ∧
          ¬ countyT <:+: toLowerList d2 then (7/10:ℚ) else 1) :=
      if_congr (and_congr_right fun _ => not_congr hcounty) rfl rfl
    rw [hstate, hhealth2, hloc2, hcounty2]
    ring
  rw [hkey]
  have hpos : 0 < boostFactor (toLowerList q) (toLowerList d2) :=
    boostFactor_pos _ _
  nlinarith [mul_pos hraw hpos]

/-- Witness for the amended C7: query `colorado`, documents `colorado` and
`co xx`, equal raw score 1. -/
theorem boost_monotonicity_amended_witness :
    (1:ℚ) * boostFactor (toLowerList ("colorado".toList))
        (toLowerList ("co xx".toList)) <
      1 * boostFactor (toLowerList ("colorado".toList))
        (toLowerList ("colorado".toList)) :=
  boost_monotonicity_amended ("colorado".toList) ("colorado".toList)
    ("co xx".toList) ("colorado".toList) 1 (by decide) (by decide) (by decide)
    (by decide) (by decide) (by decide) (by decide) (by decide) (by decide)

/-! ### Claim C8 -/

/-- C8 confirmed: every raw cosine similarity lies in `[0, 1]`.  The
claim's own premises — term weights are non-negative and both vectors are
L2-normalized (so each self-dot-product is at most 1) — appear as
hypotheses because the real-valued tf-idf weights are abstracted; they
hold for every vector tf-idf actually produces. -/
theorem cosine_scores_bounded (st : RetrieverState) (q : List Char)
    (rows : List (List ℚ)) (s : ℚ)
    (hrows : st.embeddings = some rows)
    (hq1 : ∀ x ∈ st.transform (enhanceQuery q), 0 ≤ x)
    (hq2 : dotProduct (st.transform (enhanceQuery q))
      (st.transform (enhanceQuery q)) ≤ 1)
    (hr : ∀ r ∈ rows, (∀ x ∈ r, 0 ≤ x) ∧ dotProduct r r ≤ 1)
    (hs : s ∈ rawSimilarities st q) : 0 ≤ s ∧ s ≤ 1 := by
  unfold rawSimilarities at hs
  rw [hrows] at hs
  obtain ⟨r, hrmem, hsr⟩ := List.mem_map.mp hs
  obtain ⟨hrn, hrd⟩ := hr r hrmem
  have h0 : 0 ≤ dotProduct (st.transform (enhanceQuery q)) r :=
    dotProduct_nonneg _ _ hq1 hrn
  have hcs := dotProduct_sq_le (st.transform (enhanceQuery q)) r
  have hq0 := dotProduct_self_nonneg (st.transform (enhanceQuery q))
  have hr0 := dotProduct_self_nonneg r
  constructor
  · rw [← hsr]
    exact h0
  · rw [← hsr]
    have hab : dotProduct (st.transform (enhanceQuery q))
        (st.transform (enhanceQuery q)) * dotProduct r r ≤ 1 := by
      nlinarith [mul_nonneg hq0 (sub_nonneg.mpr hrd)]
    nlinarith [hcs, hab, h0]

/-- Witness for C8 at a concrete normalized state. -/
theorem cosine_scores_bounded_witness : 0 ≤ (1:ℚ) ∧ (1:ℚ) ≤ 1 :=
  cosine_scores_bounded singleState ("zz".toList) [[1]] 1 rfl
    (by simp [singleState]) (by simp [singleState, dotProduct])
    (by simp [dotProduct]) (by simp [rawSimilarities, singleState, dotProduct])

/-! ### Claim C9 -/

/-- Claim C9 as stated: whenever a fit triggered by adding documents
completes, the embedding matrix has one weight row per stored document and
is rebuilt over the full store. -/
def claimC9Statement : Prop :=
  ∀ (wm : WeightModel) (st : RetrieverState) (docs : List Document),
    (addDocuments wm st docs).2 = none →
    ∃ rows, (addDocuments wm st docs).1.embeddings = some rows ∧
      rows.length = (addDocuments wm st docs).1.documents.length ∧
      rows = ((addDocuments wm st docs).1.documents.map
          Document.page_content).map
        (wm.docWeight ((addDocuments wm st docs).1.documents.map
          Document.page_content))

/-- The misaligned state is reachable: a first `add_documents` with a
token-less document extends the store and raises before `embeddings` is
assigned. -/
lemma poisonedState_reachable :
    (addDocuments exWeightModel initialState [exEmptyDoc]).1.documents =
        [exEmptyDoc] ∧
      (addDocuments exWeightModel initialState [exEmptyDoc]).1.embeddings =
        none ∧
      (addDocuments exWeightModel initialState [exEmptyDoc]).2 =
        some FitError.emptyVocabulary :=
  ⟨by decide, by decide, rfl⟩

/-- C9 fails on the code: after a failed first fit left one document
stored with no embeddings, the next `add_documents` fits only the two new
texts (the `embeddings is None` branch), so the fit succeeds with 2 rows
while the store holds 3 documents. -/
theorem fit_alignment_counterexample : ¬ claimC9Statement := by
  intro h
  obtain ⟨rows, hr, hl, -⟩ :=
    h exWeightModel poisonedState [exDocAB, exDocCC] (by decide)
  rw [show (addDocuments exWeightModel poisonedState
    [exDocAB, exDocCC]).1.embeddings = some [[], []] from by decide] at hr
  injection hr with hr
  subst hr
  rw [show (addDocuments exWeightModel poisonedState
    [exDocAB, exDocCC]).1.documents.length = 3 from by decide] at hl
  simp at hl

/-- C9 amended: the alignment and full-rebuild invariant holds for every
fit launched from a clean state — one whose store is empty or whose
embeddings are present — which covers every state on the success path;
only the store-extended remnant of a failed fit escapes it. -/
theorem fit_alignment_amended (wm : WeightModel) (st : RetrieverState)
    (docs : List Document)
    (hclean : st.documents = [] ∨ st.embeddings ≠ none)
    (hok : (addDocuments wm st docs).2 = none) :
    ∃ rows, (addDocuments wm st docs).1.embeddings = some rows ∧
      rows.length = (addDocuments wm st docs).1.documents.length ∧
      rows = ((addDocuments wm st docs).1.documents.map
          Document.page_content).map
        (wm.docWeight ((addDocuments wm st docs).1.documents.map
          Document.page_content)) := by
  cases hemb : st.embeddings with
  | none =>
    have hdocs : st.documents = [] := by
      rcases hclean with h | h
      · exact h
      · exact absurd hemb h
    cases hft : fitTransform wm (docs.map Document.page_content) with
    | error e =>
      exfalso
      unfold addDocuments at hok
      rw [hemb] at hok
      simp [hft] at hok
    | ok M =>
      have hM := fitTransform_ok wm _ M hft
      refine ⟨M, ?_, ?_, ?_⟩
      · unfold addDocuments
        rw [hemb]
        simp [hft]
      · unfold addDocuments
        rw [hemb]
        simp [hft, hM, hdocs]
      · unfold addDocuments
        rw [hemb]
        simp only [hft]
        simp [hdocs, hM]
  | some m =>
    cases hft : fitTransform wm ((st.documents ++ docs).map
        Document.page_content) with
    | error e =>
      exfalso
      rw [List.map_append] at hft
      unfold addDocuments at hok
      rw [hemb] at hok
      simp [hft] at hok
    | ok M =>
      rw [List.map_append] at hft
      have hM := fitTransform_ok wm _ M hft
      refine ⟨M, ?_, ?_, ?_⟩
      · unfold addDocuments
        rw [hemb]
        simp [hft]
      · unfold addDocuments
        rw [hemb]
        simp [hft, hM]
      · unfold addDocuments
        rw [hemb]
        simp [hft, hM]

/-- Witness for the amended C9: fitting two documents from the fresh
state produces a two-row matrix over the two stored documents. -/
theorem fit_alignment_amended_witness :
    ∃ rows, (addDocuments exWeightModel initialState
        [exDocAB, exDocCC]).1.embeddings = some rows ∧
      rows.length = (addDocuments exWeightModel initialState
        [exDocAB, exDocCC]).1.documents.length ∧
      rows = ((addDocuments exWeightModel initialState
          [exDocAB, exDocCC]).1.documents.map Document.page_content).map
        (exWeightModel.docWeight ((addDocuments exWeightModel initialState
          [exDocAB, exDocCC]).1.documents.map Document.page_content)) :=
  fit_alignment_amended exWeightModel initialState [exDocAB, exDocCC]
    (Or.inl rfl) (by decide)

/-! ### Claim C10 -/

/-- C10 confirmed: a retrieval leaves the retriever state unchanged.  In
the source, `retrieve` only reads `self`: the state-threaded version,
which mirrors the statement sequence of lines 160-187 step by step,
returns the result of the pure `retrieve` together with the state it was
given. -/
theorem retrieve_preserves_state (st : RetrieverState) (q : List Char)
    (k : ℤ) : retrieveSt st q k = (retrieve st q k, st) := by
  unfold retrieveSt retrieve
  by_cases hg : st.documents = [] ∨ st.embeddings = none
  · rw [if_pos hg, if_pos hg]
  · rw [if_neg hg, if_neg hg]
    unfold transformQuery applyContextBoostSt boostedScores rawSimilarities
    rfl

end EmbeddingRetriever

